import Mathlib

/-!
Verification of the motif-discovery core of `motif_discovery.py`:
profile construction (`get_profile`), scoring (`score_motifs`),
deterministic and stochastic k-mer selection
(`profile_most_probable_kmer`, `profile_randomly_generated_kmer`),
greedy search (`randomized_greedy_search`), the Gibbs sampling chain
(`gibbs_sampler_chain`) and the restart orchestrator
(`run_gibbs_with_restarts`).

Sequences are lists over the four-letter nucleotide alphabet; profile
probabilities are modelled in exact rational arithmetic; the Python
global random generator is modelled by explicitly passed streams of
draws, so that theorems quantify over all possible random executions.
-/

/-- The nucleotide alphabet {A, C, G, T}. -/
inductive Nuc : Type
  | A | C | G | T
deriving DecidableEq

/-- The iteration order `'ACGT'` used throughout the source. -/
def nucs : List Nuc := [Nuc.A, Nuc.C, Nuc.G, Nuc.T]

/-- A sequence (or motif/k-mer) is a list of nucleotides. -/
abbrev NSeq := List Nuc

/-- Column `i` of a motif set: the `i`-th character of every motif that
has one (`[motif[i] for motif in motifs]`; all motifs have one in every
use of the source). -/
def column (motifs : List NSeq) (i : Nat) : List Nuc :=
  motifs.filterMap (fun m => m.get? i)

/-- The smoothed count of `get_profile`: after the accumulation loop,
`profile[s][i]` holds `1 + (number of motifs with symbol s at position i)`. -/
def profile_count (motifs : List NSeq) (s : Nuc) (i : Nat) : ℚ :=
  1 + ((column motifs i).count s : ℚ)

/-- `col_sum = sum(profile[nuc][i] for nuc in 'ACGT')` in `get_profile`. -/
def col_sum (motifs : List NSeq) (i : Nat) : ℚ :=
  (nucs.map (fun s => profile_count motifs s i)).sum

/-- `get_profile(motifs)`: Laplace-smoothed position-specific probability
matrix, `profile[s][i] = (1 + count_s(i)) / col_sum(i)`. -/
def get_profile (motifs : List NSeq) : Nuc → Nat → ℚ :=
  fun s i => profile_count motifs s i / col_sum motifs i

/-- The inner `max_count` loop of `score_motifs`: the largest count of any
single symbol in column `i` (starting from 0, updating on strict `>`). -/
def max_count (motifs : List NSeq) (i : Nat) : Nat :=
  nucs.foldl (fun mc s => max mc ((column motifs i).count s)) 0

/-- `score_motifs(motifs)`: the sum over the `k = len(motifs[0])` columns
of `len(motifs) - max_count(column)`. -/
def score_motifs (motifs : List NSeq) : Nat :=
  ((List.range (motifs.headD []).length).map
    (fun i => motifs.length - max_count motifs i)).sum

-- ### Basic column/count lemmas

theorem count_mem_nucs (c : Nuc) : nucs.count c = 1 := by
  cases c <;> rfl

theorem sum_nucs_count (l : List Nuc) :
    (nucs.map (fun s => l.count s)).sum = l.length := by
  induction l with
  | nil => rfl
  | cons c l ih =>
    have : ∀ s : Nuc, (c :: l).count s = l.count s + (if c = s then 1 else 0) := by
      intro s
      by_cases h : c = s
      · subst h; simp [List.count_cons]
      · simp [List.count_cons, h, fun h2 : s = c => h h2.symm]
    simp only [this, nucs] at *
    simp only [List.map, List.sum_cons, List.sum_nil] at *
    cases c <;> simp <;> omega

theorem column_length (motifs : List NSeq) (k i : Nat)
    (hlen : ∀ m ∈ motifs, m.length = k) (hi : i < k) :
    (column motifs i).length = motifs.length := by
  induction motifs with
  | nil => rfl
  | cons m ms ih =>
    have hm : m.length = k := hlen m (by simp)
    have : m.get? i = some (m.get ⟨i, by omega⟩) := List.get?_eq_get (by omega)
    simp only [column, List.filterMap_cons, this, List.length_cons]
    rw [column] at ih
    rw [ih (fun x hx => hlen x (by simp [hx]))]

theorem col_sum_eq (motifs : List NSeq) (i : Nat) :
    col_sum motifs i = 4 + ((column motifs i).length : ℚ) := by
  have h := sum_nucs_count (column motifs i)
  simp only [col_sum, profile_count, nucs, List.map, List.sum_cons, List.sum_nil] at *
  have : ((column motifs i).count Nuc.A : ℚ) + ((column motifs i).count Nuc.C : ℚ)
      + ((column motifs i).count Nuc.G : ℚ) + ((column motifs i).count Nuc.T : ℚ)
      = ((column motifs i).length : ℚ) := by
    rw [← h]; push_cast; ring
  rw [← this]; ring

theorem count_column_eq (motifs : List NSeq) (i : Nat) (s : Nuc) :
    (column motifs i).count s = motifs.countP (fun m => decide (m.get? i = some s)) := by
  induction motifs with
  | nil => rfl
  | cons m ms ih =>
    simp only [column, List.filterMap_cons, List.countP_cons] at ih ⊢
    cases hg : m.get? i with
    | none =>
      simp only [hg]
      rw [ih]
      simp
    | some c =>
      simp only [hg, List.count_cons]
      rw [ih]
      by_cases hc : c = s
      · subst hc; simp
      · simp [hc, fun h : s = c => hc h.symm]

/-- C4: for a non-empty motif set whose `t` entries all have length `k` and
any column `i < k` and symbol `s`, the Profile Builder's output equals
(count of entries with symbol `s` at position `i`, plus pseudocount 1)
divided by the column total `t + 4`. -/
theorem get_profile_eq_laplace (motifs : List NSeq) (k i : Nat) (s : Nuc)
    (hne : motifs ≠ []) (hlen : ∀ m ∈ motifs, m.length = k) (hi : i < k) :
    get_profile motifs s i =
      ((motifs.countP (fun m => decide (m.get? i = some s)) : ℚ) + 1)
        / ((motifs.length : ℚ) + 4) := by
  rw [get_profile]
  rw [col_sum_eq, column_length motifs k i hlen hi, profile_count, count_column_eq]
  ring_nf

/-- Witness for C4 at a concrete input. -/
theorem get_profile_eq_laplace_witness :
    (([[Nuc.A]] : List NSeq) ≠ [] ∧ (∀ m ∈ ([[Nuc.A]] : List NSeq), m.length = 1) ∧ 0 < 1) ∧
    get_profile [[Nuc.A]] Nuc.A 0 =
      ((([[Nuc.A]] : List NSeq).countP (fun m => decide (m.get? 0 = some Nuc.A)) : ℚ) + 1)
        / ((([[Nuc.A]] : List NSeq).length : ℚ) + 4) :=
  ⟨⟨by decide, by decide, by decide⟩,
   get_profile_eq_laplace [[Nuc.A]] 1 0 Nuc.A (by decide) (by decide) (by decide)⟩

/-- C9: in every Profile produced by the Profile Builder, the four symbol
probabilities at each column sum exactly to 1 (exact rationals), and every
cell is strictly between 0 and 1. -/
theorem get_profile_columns_stochastic (motifs : List NSeq) (i : Nat) :
    (nucs.map (fun s => get_profile motifs s i)).sum = 1 ∧
    ∀ s : Nuc, 0 < get_profile motifs s i ∧ get_profile motifs s i < 1 := by
  have hL : (0:ℚ) ≤ ((column motifs i).length : ℚ) := by positivity
  have hpos : 0 < col_sum motifs i := by rw [col_sum_eq]; linarith
  have hne : col_sum motifs i ≠ 0 := ne_of_gt hpos
  constructor
  · have hexp : (nucs.map (fun s => get_profile motifs s i)).sum
        = col_sum motifs i / col_sum motifs i := by
      simp only [nucs, List.map, List.sum_cons, List.sum_nil, get_profile]
      rw [col_sum, nucs]
      simp only [List.map, List.sum_cons, List.sum_nil]
      field_simp
    rw [hexp, div_self hne]
  · intro s
    have hcnt : ((column motifs i).count s : ℚ) ≤ ((column motifs i).length : ℚ) := by
      exact_mod_cast List.count_le_length s (column motifs i)
    have h1 : 0 < profile_count motifs s i := by
      rw [profile_count]; positivity
    have h2 : profile_count motifs s i < col_sum motifs i := by
      rw [profile_count, col_sum_eq]; linarith
    exact ⟨div_pos h1 hpos, (div_lt_one hpos).2 h2⟩

-- ### Scorer lemmas

theorem count_le_max_count (motifs : List NSeq) (i : Nat) (s : Nuc) :
    (column motifs i).count s ≤ max_count motifs i := by
  cases s <;> simp [max_count, nucs, List.foldl] <;> omega

theorem max_count_le_length (motifs : List NSeq) (i : Nat) :
    max_count motifs i ≤ (column motifs i).length := by
  have hA := List.count_le_length Nuc.A (column motifs i)
  have hC := List.count_le_length Nuc.C (column motifs i)
  have hG := List.count_le_length Nuc.G (column motifs i)
  have hT := List.count_le_length Nuc.T (column motifs i)
  simp [max_count, nucs, List.foldl]
  omega

theorem max_count_exists (motifs : List NSeq) (i : Nat) :
    ∃ s : Nuc, max_count motifs i = (column motifs i).count s := by
  set a := (column motifs i).count Nuc.A with ha
  set b := (column motifs i).count Nuc.C with hb
  set c := (column motifs i).count Nuc.G with hc
  set d := (column motifs i).count Nuc.T with hd
  have hm : max_count motifs i = ((a.max b).max c).max d := by
    simp [max_count, nucs, List.foldl_cons, List.foldl_nil, Nat.zero_max]
  rcases le_total (((a.max b).max c)) d with h | h
  · exact ⟨Nuc.T, by rw [hm, ← hd]; exact Nat.max_eq_right h⟩
  · rcases le_total (a.max b) c with h2 | h2
    · exact ⟨Nuc.G, by
        rw [hm, ← hc]; exact (Nat.max_eq_left h).trans (Nat.max_eq_right h2)⟩
    · rcases le_total a b with h3 | h3
      · exact ⟨Nuc.C, by
          rw [hm, ← hb]
          exact ((Nat.max_eq_left h).trans (Nat.max_eq_left h2)).trans (Nat.max_eq_right h3)⟩
      · exact ⟨Nuc.A, by
          rw [hm, ← ha]
          exact ((Nat.max_eq_left h).trans (Nat.max_eq_left h2)).trans (Nat.max_eq_left h3)⟩

theorem list_range_map_sum {M : Type} [AddCommMonoid M] (n : Nat) (f : Nat → M) :
    ((List.range n).map f).sum = ∑ i in Finset.range n, f i := by
  induction n with
  | zero => rfl
  | succ n ih =>
    rw [List.range_succ, List.map_append, List.sum_append, Finset.sum_range_succ, ih]
    simp

theorem mem_column_of_mem (motifs : List NSeq) (i : Nat) (m : NSeq) (c : Nuc)
    (hm : m ∈ motifs) (hg : m.get? i = some c) : c ∈ column motifs i := by
  rw [column, List.mem_filterMap]
  exact ⟨m, hm, hg⟩

/-- C5: for a motif set of `t` entries all of length `k`, the Scorer returns
`∑_{i<k} (t - max_count i)`, and this score is 0 iff every column `i < k`
is unanimous. -/
theorem score_motifs_eq_sum_and_zero_iff (motifs : List NSeq) (k : Nat)
    (hne : motifs ≠ []) (hlen : ∀ m ∈ motifs, m.length = k) :
    score_motifs motifs = ∑ i in Finset.range k, (motifs.length - max_count motifs i) ∧
    (score_motifs motifs = 0 ↔
      ∀ i < k, ∃ s : Nuc, ∀ m ∈ motifs, m.get? i = some s) := by
  obtain ⟨m0, ms, rfl⟩ : ∃ m0 ms, motifs = m0 :: ms := by
    cases motifs with
    | nil => exact absurd rfl hne
    | cons a l => exact ⟨a, l, rfl⟩
  set motifs := m0 :: ms with hmot
  have hk : (motifs.headD []).length = k := hlen m0 (by simp [hmot])
  have hsum : score_motifs motifs
      = ∑ i in Finset.range k, (motifs.length - max_count motifs i) := by
    rw [score_motifs, hk, list_range_map_sum]
  refine ⟨hsum, ?_⟩
  rw [hsum]
  rw [Finset.sum_eq_zero_iff]
  constructor
  · intro h i hi
    have hterm := h i (Finset.mem_range.2 hi)
    have hmc : motifs.length ≤ max_count motifs i := by omega
    obtain ⟨s, hs⟩ := max_count_exists motifs i
    have hcl : (column motifs i).length = motifs.length := column_length motifs k i hlen hi
    have hcle : (column motifs i).count s ≤ (column motifs i).length :=
      List.count_le_length s (column motifs i)
    have hceq : (column motifs i).count s = (column motifs i).length := by omega
    have hall : ∀ c ∈ column motifs i, s = c := List.count_eq_length.1 hceq
    refine ⟨s, fun m hm => ?_⟩
    have hmk : m.length = k := hlen m hm
    have hgl : m.get? i = some (m.get ⟨i, by omega⟩) := List.get?_eq_get (by omega)
    have hc := hall _ (mem_column_of_mem motifs i m _ hm hgl)
    rw [hgl, ← hc]
  · intro h i hi
    have hi2 := Finset.mem_range.1 hi
    obtain ⟨s, hs⟩ := h i hi2
    have hcl : (column motifs i).length = motifs.length := column_length motifs k i hlen hi2
    have hall : ∀ c ∈ column motifs i, s = c := by
      intro c hc
      rw [column, List.mem_filterMap] at hc
      obtain ⟨m, hm, hg⟩ := hc
      have := hs m hm
      rw [this] at hg
      exact Option.some.inj hg
    have hceq : (column motifs i).count s = (column motifs i).length :=
      List.count_eq_length.2 hall
    have := count_le_max_count motifs i s
    omega

/-- Witness for C5 at a concrete input. -/
theorem score_motifs_eq_sum_and_zero_iff_witness :
    (([[Nuc.A], [Nuc.A]] : List NSeq) ≠ [] ∧
      (∀ m ∈ ([[Nuc.A], [Nuc.A]] : List NSeq), m.length = 1)) ∧
    (score_motifs [[Nuc.A], [Nuc.A]]
        = ∑ i in Finset.range 1, (([[Nuc.A], [Nuc.A]] : List NSeq).length
            - max_count [[Nuc.A], [Nuc.A]] i) ∧
      (score_motifs [[Nuc.A], [Nuc.A]] = 0 ↔
        ∀ i < 1, ∃ s : Nuc, ∀ m ∈ ([[Nuc.A], [Nuc.A]] : List NSeq), m.get? i = some s)) :=
  ⟨⟨by decide, by decide⟩,
   score_motifs_eq_sum_and_zero_iff [[Nuc.A], [Nuc.A]] 1 (by decide) (by decide)⟩

-- ### Deterministic selector

/-- A profile is a map from symbol and position to a rational probability
(the Python nested dict `profile[char][j]`). -/
abbrev Profile := Nuc → Nat → ℚ

/-- The inner probability loop shared by both selectors:
`prob = 1.0; for j, char in enumerate(kmer): prob *= profile[char][j]`. -/
def kmer_prob (profile : Profile) (kmer : NSeq) : ℚ :=
  (kmer.enum).foldl (fun acc p => acc * profile p.2 p.1) 1

/-- The window `text[i:i+k]`. -/
def window (text : NSeq) (k i : Nat) : NSeq :=
  (text.drop i).take k

/-- The number of candidate windows, `len(range(len(text) - k + 1))`
(empty when `n + 1 ≤ k`, because a Python `range` of a negative bound is
empty). -/
def num_windows (text : NSeq) (k : Nat) : Nat :=
  text.length + 1 - k

/-- One iteration of the `profile_most_probable_kmer` loop: update
`(max_prob, best_kmer)` when `prob > max_prob`. -/
def pm_step (text : NSeq) (k : Nat) (profile : Profile) (st : ℚ × NSeq) (i : Nat) :
    ℚ × NSeq :=
  let kmer := window text k i
  let prob := kmer_prob profile kmer
  if st.1 < prob then (prob, kmer) else st

/-- The loop state of `profile_most_probable_kmer` after scanning the first
`m` windows, starting from `max_prob = -1`, `best_kmer = text[:k]`. -/
def pm_state (text : NSeq) (k : Nat) (profile : Profile) (m : Nat) : ℚ × NSeq :=
  (List.range m).foldl (pm_step text k profile) ((-1 : ℚ), text.take k)

/-- `profile_most_probable_kmer(text, k, profile)`: left-to-right scan of
all windows, keeping the first window whose product strictly exceeds the
running `max_prob` (initially `-1`, with `best_kmer = text[:k]`). -/
def profile_most_probable_kmer (text : NSeq) (k : Nat) (profile : Profile) : NSeq :=
  (pm_state text k profile (num_windows text k)).2

theorem kmer_prob_nonneg (profile : Profile) (hp : ∀ s j, 0 ≤ profile s j)
    (kmer : NSeq) : 0 ≤ kmer_prob profile kmer := by
  rw [kmer_prob]
  have : ∀ l : List (Nat × Nuc), ∀ acc : ℚ, 0 ≤ acc →
      0 ≤ l.foldl (fun acc p => acc * profile p.2 p.1) acc := by
    intro l
    induction l with
    | nil => intro acc h; simpa using h
    | cons p l ih =>
      intro acc h
      exact ih _ (mul_nonneg h (hp p.2 p.1))
  exact this _ 1 (by norm_num)

theorem pm_state_succ (text : NSeq) (k : Nat) (profile : Profile) (m : Nat) :
    pm_state text k profile (m + 1)
      = pm_step text k profile (pm_state text k profile m) m := by
  rw [pm_state, pm_state, List.range_succ, List.foldl_append, List.foldl_cons, List.foldl_nil]

theorem pm_state_invariant (text : NSeq) (k : Nat) (profile : Profile)
    (hp : ∀ s j, 0 ≤ profile s j) (m : Nat) (hm : 1 ≤ m) :
    ∃ b < m,
      pm_state text k profile m
        = (kmer_prob profile (window text k b), window text k b) ∧
      (∀ j < m, kmer_prob profile (window text k j)
        ≤ kmer_prob profile (window text k b)) ∧
      (∀ j < b, kmer_prob profile (window text k j)
        < kmer_prob profile (window text k b)) := by
  induction m with
  | zero => omega
  | succ m ih =>
    rcases Nat.eq_zero_or_pos m with rfl | hm1
    · refine ⟨0, by omega, ?_, ?_, ?_⟩
      · rw [pm_state_succ]
        have h0 : pm_state text k profile 0 = ((-1 : ℚ), text.take k) := rfl
        rw [h0, pm_step]
        have : (-1 : ℚ) < kmer_prob profile (window text k 0) := by
          have := kmer_prob_nonneg profile hp (window text k 0)
          linarith
        simp [this]
      · intro j hj
        have : j = 0 := by omega
        subst this; exact le_refl _
      · intro j hj; omega
    · obtain ⟨b, hb, hst, hmax, hstrict⟩ := ih hm1
      rw [pm_state_succ, hst, pm_step]
      by_cases hlt : kmer_prob profile (window text k b)
          < kmer_prob profile (window text k m)
      · refine ⟨m, by omega, by simp [hlt], ?_, ?_⟩
        · intro j hj
          rcases Nat.lt_succ_iff_lt_or_eq.1 hj with hj2 | rfl
          · exact le_of_lt (lt_of_le_of_lt (hmax j hj2) hlt)
          · exact le_refl _
        · intro j hj2
          exact lt_of_le_of_lt (hmax j hj2) hlt
      · refine ⟨b, by omega, by simp [hlt], ?_, hstrict⟩
        intro j hj
        rcases Nat.lt_succ_iff_lt_or_eq.1 hj with hj2 | rfl
        · exact hmax j hj2
        · exact le_of_not_lt hlt

/-- C6: for `n ≥ k` and a Profile with nonnegative entries (as produced by
the Profile Builder), the Deterministic Selector returns a window whose
product of profile probabilities is maximal over all `n - k + 1` windows,
with ties broken in favour of the leftmost window (every strictly earlier
window has a strictly smaller product). -/
theorem profile_most_probable_kmer_argmax (text : NSeq) (k : Nat) (profile : Profile)
    (hk : k ≤ text.length) (hp : ∀ s j, 0 ≤ profile s j) :
    ∃ b, b + k ≤ text.length ∧
      profile_most_probable_kmer text k profile = window text k b ∧
      (∀ j, j + k ≤ text.length →
        kmer_prob profile (window text k j) ≤ kmer_prob profile (window text k b)) ∧
      (∀ j < b, kmer_prob profile (window text k j)
        < kmer_prob profile (window text k b)) := by
  have hW : 1 ≤ num_windows text k := by rw [num_windows]; omega
  obtain ⟨b, hb, hst, hmax, hstrict⟩ :=
    pm_state_invariant text k profile hp (num_windows text k) hW
  rw [num_windows] at hb
  refine ⟨b, by omega, ?_, ?_, hstrict⟩
  · rw [profile_most_probable_kmer, hst]
  · intro j hj
    exact hmax j (by rw [num_windows]; omega)

/-- Witness for C6 at a concrete input. -/
theorem profile_most_probable_kmer_argmax_witness :
    (1 ≤ ([Nuc.A] : NSeq).length ∧ ∀ (s : Nuc) (j : Nat), (0:ℚ) ≤ (fun _ _ => 1 : Profile) s j) ∧
    (∃ b, b + 1 ≤ ([Nuc.A] : NSeq).length ∧
      profile_most_probable_kmer [Nuc.A] 1 (fun _ _ => 1) = window [Nuc.A] 1 b ∧
      (∀ j, j + 1 ≤ ([Nuc.A] : NSeq).length →
        kmer_prob (fun _ _ => 1) (window [Nuc.A] 1 j)
          ≤ kmer_prob (fun _ _ => 1) (window [Nuc.A] 1 b)) ∧
      (∀ j < b, kmer_prob (fun _ _ => 1) (window [Nuc.A] 1 j)
        < kmer_prob (fun _ _ => 1) (window [Nuc.A] 1 b))) :=
  ⟨⟨by decide, fun s j => by norm_num⟩,
   profile_most_probable_kmer_argmax [Nuc.A] 1 (fun _ _ => 1)
     (by decide) (fun s j => by norm_num)⟩

/-- C7 counterexample: on a length-2 text with `k = 3` (so `n < k`), the
Deterministic Selector does not signal any error: the scan loop body runs
zero times and the function returns the default `text[:k]`, which is the
whole (too short) text — in particular not a length-3 window. -/
theorem profile_most_probable_kmer_short_counterexample :
    profile_most_probable_kmer [Nuc.A, Nuc.C] 3 (fun _ _ => 1) = [Nuc.A, Nuc.C] ∧
    (profile_most_probable_kmer [Nuc.A, Nuc.C] 3 (fun _ _ => 1)).length ≠ 3 := by
  constructor
  · rfl
  · decide

/-- C7 (amended): for `n < k` the Deterministic Selector signals no error:
it scans zero windows and returns the default `text[:k]`, i.e. the entire
input sequence of length `n < k`. -/
theorem profile_most_probable_kmer_short (text : NSeq) (k : Nat) (profile : Profile)
    (h : text.length < k) :
    profile_most_probable_kmer text k profile = text := by
  have h0 : num_windows text k = 0 := by rw [num_windows]; omega
  rw [profile_most_probable_kmer, pm_state, h0]
  simp [List.take_of_length_le (le_of_lt h)]

/-- Witness for the amended C7 at a concrete input. -/
theorem profile_most_probable_kmer_short_witness :
    (([Nuc.A] : NSeq).length < 2) ∧
    profile_most_probable_kmer [Nuc.A] 2 (fun _ _ => 1) = [Nuc.A] :=
  ⟨by decide, profile_most_probable_kmer_short [Nuc.A] 2 (fun _ _ => 1) (by decide)⟩

-- ### Stochastic selector

/-- The candidate list built by `profile_randomly_generated_kmer`
(`kmers.append(kmer)` for every window, left to right). -/
def windows (text : NSeq) (k : Nat) : List NSeq :=
  (List.range (num_windows text k)).map (window text k)

/-- The semantics of `random.choices(population, weights)[0]`: walk the
cumulative weights and return the first element whose cumulative weight
exceeds the draw `r` (with the final element as clamp), exactly the
bisect-on-cumulative-weights procedure of the Python library. -/
def weighted_pick : List NSeq → List ℚ → ℚ → NSeq
  | [], _, _ => []
  | [x], _, _ => x
  | x :: _ :: _, [], _ => x
  | x :: y :: xs, w :: ws, r => if r < w then x else weighted_pick (y :: xs) ws (r - w)

/-- `profile_randomly_generated_kmer(text, k, profile)`: compute all window
products; if their total is zero, fall back to `random.choice(kmers)`
(modelled by the uniform index draw `u`), otherwise normalize and draw via
`random.choices` (modelled by the threshold draw `r`, the unit-interval
value produced by the library's generator). -/
def profile_randomly_generated_kmer (text : NSeq) (k : Nat) (profile : Profile)
    (u : Nat) (r : ℚ) : NSeq :=
  let kmers := windows text k
  let probabilities := kmers.map (kmer_prob profile)
  let total := probabilities.sum
  if total = 0 then kmers.getD (u % kmers.length) []
  else weighted_pick kmers (probabilities.map (fun p => p / total)) r

theorem windows_length (text : NSeq) (k : Nat) :
    (windows text k).length = num_windows text k := by
  rw [windows, List.length_map, List.length_range]

theorem windows_getD (text : NSeq) (k i : Nat) (hi : i < num_windows text k) :
    (windows text k).getD i [] = window text k i := by
  rw [windows]
  rw [List.getD_eq_getElem _ _ (by rw [List.length_map, List.length_range]; exact hi)]
  simp

theorem weighted_pick_mem :
    ∀ (items : List NSeq) (ws : List ℚ) (r : ℚ), items ≠ [] →
      weighted_pick items ws r ∈ items := by
  intro items
  induction items with
  | nil => intro ws r h; exact absurd rfl h
  | cons x xs ih =>
    intro ws r _
    cases xs with
    | nil => cases ws <;> simp [weighted_pick]
    | cons y ys =>
      cases ws with
      | nil => simp [weighted_pick]
      | cons w ws' =>
        by_cases hr : r < w
        · simp [weighted_pick, hr]
        · simp only [weighted_pick, if_neg hr]
          exact List.mem_cons_of_mem x (ih ws' (r - w) (by simp))

theorem take_sum_nonneg (ws : List ℚ) (hnn : ∀ w ∈ ws, 0 ≤ w) (i : Nat) :
    0 ≤ (ws.take i).sum :=
  List.sum_nonneg (fun w hw => hnn w (List.take_subset i ws hw))

theorem weighted_pick_take_sum :
    ∀ (items : List NSeq) (ws : List ℚ), items.length = ws.length →
      (∀ w ∈ ws, 0 ≤ w) → ∀ i r, i < items.length →
      (ws.take i).sum ≤ r → r < (ws.take (i + 1)).sum →
      weighted_pick items ws r = items.getD i [] := by
  intro items
  induction items with
  | nil =>
    intro ws hlen hnn i r hi hlo hhi
    exfalso
    simp only [List.length_nil] at hi hlen
    omega
  | cons x xs ih =>
    intro ws hlen hnn i r hi hlo hhi
    cases ws with
    | nil => simp at hlen
    | cons w ws' =>
      cases xs with
      | nil =>
        have hi0 : i = 0 := by
          simp only [List.length_cons, List.length_nil] at hi; omega
        subst hi0
        rfl
      | cons y ys =>
        cases i with
        | zero =>
          have hr : r < w := by simpa using hhi
          simp [weighted_pick, hr]
        | succ i =>
          have hlo' : w + (ws'.take i).sum ≤ r := by
            simpa [List.take_succ_cons] using hlo
          have hhi' : r < w + (ws'.take (i + 1)).sum := by
            simpa [List.take_succ_cons] using hhi
          have htk : 0 ≤ (ws'.take i).sum :=
            take_sum_nonneg ws' (fun v hv => hnn v (List.mem_cons_of_mem w hv)) i
          have hge : ¬ r < w := by linarith
          simp only [weighted_pick, if_neg hge]
          have := ih ws' (by simpa using hlen)
            (fun v hv => hnn v (List.mem_cons_of_mem w hv)) i (r - w)
            (by simp only [List.length_cons] at hi ⊢; omega) (by linarith) (by linarith)
          simpa using this

/-- C8: for `n ≥ k`, (a) when every candidate window's product is zero the
Stochastic Selector does not fail but picks the `(u mod (n-k+1))`-th window,
a uniform choice among the `n - k + 1` candidates; (b) when the total weight
is positive (entries nonnegative), the normalized cumulative weights
partition the unit interval and a draw `r` landing in the `i`-th segment —
a segment of length `weight_i / total` — yields the `i`-th window, i.e. the
draw is proportional to the window weights. -/
theorem profile_randomly_generated_kmer_spec (text : NSeq) (k : Nat) (profile : Profile)
    (hk : k ≤ text.length) :
    ((∀ i, i + k ≤ text.length → kmer_prob profile (window text k i) = 0) →
      ∀ u r, profile_randomly_generated_kmer text k profile u r
        = window text k (u % num_windows text k)) ∧
    ((∀ s j, 0 ≤ profile s j) →
      0 < ((windows text k).map (kmer_prob profile)).sum →
      ∀ i, i < num_windows text k →
        (((((windows text k).map (kmer_prob profile)).map
            (fun p => p / ((windows text k).map (kmer_prob profile)).sum)).take (i + 1)).sum
          = ((((windows text k).map (kmer_prob profile)).map
              (fun p => p / ((windows text k).map (kmer_prob profile)).sum)).take i).sum
            + kmer_prob profile (window text k i)
              / ((windows text k).map (kmer_prob profile)).sum) ∧
        ∀ u r,
          ((((windows text k).map (kmer_prob profile)).map
            (fun p => p / ((windows text k).map (kmer_prob profile)).sum)).take i).sum ≤ r →
          r < ((((windows text k).map (kmer_prob profile)).map
            (fun p => p / ((windows text k).map (kmer_prob profile)).sum)).take (i + 1)).sum →
          profile_randomly_generated_kmer text k profile u r = window text k i) := by
  have hW : 1 ≤ num_windows text k := by rw [num_windows]; omega
  constructor
  · intro hz u r
    have hsum : ((windows text k).map (kmer_prob profile)).sum = 0 := by
      apply List.sum_eq_zero
      intro p hp
      rw [List.mem_map] at hp
      obtain ⟨win, hwin, rfl⟩ := hp
      rw [windows, List.mem_map] at hwin
      obtain ⟨i, hi, rfl⟩ := hwin
      rw [List.mem_range, num_windows] at hi
      exact hz i (by omega)
    rw [profile_randomly_generated_kmer]
    simp only [hsum, if_pos rfl, windows_length]
    exact windows_getD text k _ (Nat.mod_lt u (by omega))
  · intro hp htot i hi
    set probs := (windows text k).map (kmer_prob profile) with hprobs
    set nw := probs.map (fun p => p / probs.sum) with hnw
    have hlen : (windows text k).length = nw.length := by
      rw [hnw, hprobs, List.length_map, List.length_map]
    have hgd : probs.getD i 0 = kmer_prob profile (window text k i) := by
      rw [hprobs]
      rw [List.getD_eq_getElem _ _ (by rw [List.length_map, windows_length]; exact hi)]
      rw [List.getElem_map]
      congr 1
      have := windows_getD text k i hi
      rw [List.getD_eq_getElem _ _ (by rw [windows_length]; exact hi)] at this
      exact this
    have hcum : (nw.take (i + 1)).sum
        = (nw.take i).sum + kmer_prob profile (window text k i) / probs.sum := by
      have hilen : i < nw.length := by
        rw [← hlen, windows_length]; exact hi
      have hpl : i < probs.length := by
        rw [hprobs, List.length_map, windows_length]; exact hi
      rw [List.take_succ, List.sum_append, List.getElem?_eq_getElem hilen]
      simp only [Option.toList_some, List.sum_cons, List.sum_nil, add_zero]
      congr 1
      have h1 : nw[i] = probs[i] / probs.sum := by
        simp only [hnw, List.getElem_map]
      rw [h1]
      congr 1
      rw [List.getD_eq_getElem _ _ hpl] at hgd
      exact hgd
    refine ⟨hcum, ?_⟩
    intro u r hlo hhi
    rw [profile_randomly_generated_kmer]
    simp only [← hprobs, ← hnw, if_neg (ne_of_gt htot)]
    have hnn : ∀ w ∈ nw, 0 ≤ w := by
      intro w hw
      rw [hnw, List.mem_map] at hw
      obtain ⟨p, hpmem, rfl⟩ := hw
      rw [hprobs, List.mem_map] at hpmem
      obtain ⟨win, _, rfl⟩ := hpmem
      exact div_nonneg (kmer_prob_nonneg profile hp win) (le_of_lt htot)
    have := weighted_pick_take_sum (windows text k) nw hlen hnn i r
      (by rw [windows_length]; exact hi) hlo hhi
    rw [this]
    exact windows_getD text k i hi

/-- Witness for C8 at a concrete input. -/
theorem profile_randomly_generated_kmer_spec_witness :
    (1 ≤ ([Nuc.A] : NSeq).length) ∧
    (((∀ i, i + 1 ≤ ([Nuc.A] : NSeq).length → kmer_prob (fun _ _ => 1 : Profile) (window [Nuc.A] 1 i) = 0) →
      ∀ u r, profile_randomly_generated_kmer [Nuc.A] 1 (fun _ _ => 1 : Profile) u r
        = window [Nuc.A] 1 (u % num_windows [Nuc.A] 1)) ∧
    ((∀ s j, 0 ≤ (fun _ _ => 1 : Profile) s j) →
      0 < ((windows [Nuc.A] 1).map (kmer_prob (fun _ _ => 1 : Profile))).sum →
      ∀ i, i < num_windows [Nuc.A] 1 →
        (((((windows [Nuc.A] 1).map (kmer_prob (fun _ _ => 1 : Profile))).map
            (fun p => p / ((windows [Nuc.A] 1).map (kmer_prob (fun _ _ => 1 : Profile))).sum)).take (i + 1)).sum
          = ((((windows [Nuc.A] 1).map (kmer_prob (fun _ _ => 1 : Profile))).map
              (fun p => p / ((windows [Nuc.A] 1).map (kmer_prob (fun _ _ => 1 : Profile))).sum)).take i).sum
            + kmer_prob (fun _ _ => 1 : Profile) (window [Nuc.A] 1 i)
              / ((windows [Nuc.A] 1).map (kmer_prob (fun _ _ => 1 : Profile))).sum) ∧
        ∀ u r,
          ((((windows [Nuc.A] 1).map (kmer_prob (fun _ _ => 1 : Profile))).map
            (fun p => p / ((windows [Nuc.A] 1).map (kmer_prob (fun _ _ => 1 : Profile))).sum)).take i).sum ≤ r →
          r < ((((windows [Nuc.A] 1).map (kmer_prob (fun _ _ => 1 : Profile))).map
            (fun p => p / ((windows [Nuc.A] 1).map (kmer_prob (fun _ _ => 1 : Profile))).sum)).take (i + 1)).sum →
          profile_randomly_generated_kmer [Nuc.A] 1 (fun _ _ => 1 : Profile) u r = window [Nuc.A] 1 i)) :=
  ⟨by decide,
   profile_randomly_generated_kmer_spec [Nuc.A] 1 (fun _ _ => 1) (by decide)⟩

-- ### Random seeding and greedy search

/-- The random seed shared by both search procedures:
`r = random.randint(0, n - k); motifs.append(seq[r:r+k])` for each
sequence, with the draws supplied by the stream `g`. -/
def random_seed_motifs (dna : List NSeq) (k : Nat) (g : Nat → Nat) : List NSeq :=
  (List.range dna.length).map
    (fun j => window (dna.getD j []) k (g j % ((dna.headD []).length + 1 - k)))

/-- One iteration body of `randomized_greedy_search`: rebuild the profile
from the current motifs and replace every entry by its
`profile_most_probable_kmer`. -/
def greedy_step (dna : List NSeq) (k : Nat) (motifs : List NSeq) : List NSeq :=
  dna.map (fun seq => profile_most_probable_kmer seq k (get_profile motifs))

/-- The `while True` loop of `randomized_greedy_search`, bounded by a fuel
argument: the loop accepts the new motif set only when its score strictly
decreases, so any fuel of at least `score_motifs best` steps is never
exhausted (see `greedy_loop_eq`, which recovers the unbounded loop
recurrence exactly). At every loop head the Python `motifs` and
`best_motifs` coincide, so the loop state is a single motif set. -/
def greedy_go (dna : List NSeq) (k : Nat) : Nat → List NSeq → List NSeq
  | 0, best => best
  | fuel + 1, best =>
    if score_motifs (greedy_step dna k best) < score_motifs best then
      greedy_go dna k fuel (greedy_step dna k best)
    else best

/-- The `while True` loop of `randomized_greedy_search`: start `greedy_go`
with enough fuel that it never runs out. -/
def greedy_loop (dna : List NSeq) (k : Nat) (best : List NSeq) : List NSeq :=
  greedy_go dna k (score_motifs best) best

theorem greedy_go_fuel_irrel (dna : List NSeq) (k : Nat) :
    ∀ f1 f2 best, score_motifs best ≤ f1 → score_motifs best ≤ f2 →
      greedy_go dna k f1 best = greedy_go dna k f2 best := by
  intro f1
  induction f1 with
  | zero =>
    intro f2 best h1 h2
    cases f2 with
    | zero => rfl
    | succ f2 =>
      have h0 : score_motifs best = 0 := by omega
      have hc : ¬ score_motifs (greedy_step dna k best) < score_motifs best := by omega
      simp [greedy_go, hc]
  | succ f1 ih =>
    intro f2 best h1 h2
    cases f2 with
    | zero =>
      have h0 : score_motifs best = 0 := by omega
      have hc : ¬ score_motifs (greedy_step dna k best) < score_motifs best := by omega
      simp [greedy_go, hc]
    | succ f2 =>
      by_cases hc : score_motifs (greedy_step dna k best) < score_motifs best
      · simp only [greedy_go, if_pos hc]
        exact ih f2 (greedy_step dna k best) (by omega) (by omega)
      · simp only [greedy_go, if_neg hc]

/-- The unbounded `while True` recurrence of the source, recovered from the
fuelled definition: accept and continue on strict improvement, else stop. -/
theorem greedy_loop_eq (dna : List NSeq) (k : Nat) (best : List NSeq) :
    greedy_loop dna k best =
      if score_motifs (greedy_step dna k best) < score_motifs best then
        greedy_loop dna k (greedy_step dna k best)
      else best := by
  rw [greedy_loop, greedy_loop]
  by_cases hc : score_motifs (greedy_step dna k best) < score_motifs best
  · rw [if_pos hc]
    obtain ⟨sc, hsb⟩ : ∃ sc, score_motifs best = sc + 1 :=
      ⟨score_motifs best - 1, by omega⟩
    rw [hsb]
    simp only [greedy_go]
    rw [if_pos hc]
    exact greedy_go_fuel_irrel dna k sc (score_motifs (greedy_step dna k best))
      (greedy_step dna k best) (by omega) (by omega)
  · rw [if_neg hc]
    cases hsb : score_motifs best with
    | zero => rfl
    | succ sc =>
      simp only [greedy_go]
      rw [if_neg hc]

/-- `randomized_greedy_search(dna, k, t)` (the parameter `t` is accepted
but unused, as in the source). -/
def randomized_greedy_search (dna : List NSeq) (k t : Nat) (g : Nat → Nat) : List NSeq :=
  greedy_loop dna k (random_seed_motifs dna k g)

theorem greedy_go_spec (dna : List NSeq) (k : Nat) :
    ∀ fuel best, score_motifs best ≤ fuel →
      ∃ m, greedy_go dna k fuel best = (greedy_step dna k)^[m] best ∧
        (∀ j < m, score_motifs ((greedy_step dna k)^[j + 1] best)
          < score_motifs ((greedy_step dna k)^[j] best)) ∧
        ¬ score_motifs ((greedy_step dna k)^[m + 1] best)
          < score_motifs ((greedy_step dna k)^[m] best) := by
  intro fuel
  induction fuel with
  | zero =>
    intro best hf
    refine ⟨0, rfl, by omega, ?_⟩
    show ¬ score_motifs (greedy_step dna k best) < score_motifs best
    omega
  | succ fuel ih =>
    intro best hf
    by_cases h : score_motifs (greedy_step dna k best) < score_motifs best
    · obtain ⟨m, hm, hdec, hstop⟩ := ih (greedy_step dna k best) (by omega)
      refine ⟨m + 1, ?_, ?_, ?_⟩
      · simp only [greedy_go, if_pos h]
        exact hm
      · intro j hj
        cases j with
        | zero => exact h
        | succ j => exact hdec j (by omega)
      · exact hstop
    · refine ⟨0, ?_, by omega, h⟩
      simp only [greedy_go, if_neg h]
      rfl

theorem greedy_loop_spec (dna : List NSeq) (k : Nat) :
    ∀ best, ∃ m, greedy_loop dna k best = (greedy_step dna k)^[m] best ∧
      (∀ j < m, score_motifs ((greedy_step dna k)^[j + 1] best)
        < score_motifs ((greedy_step dna k)^[j] best)) ∧
      ¬ score_motifs ((greedy_step dna k)^[m + 1] best)
        < score_motifs ((greedy_step dna k)^[m] best) := by
  intro best
  exact greedy_go_spec dna k (score_motifs best) best (le_refl _)

/-- C3: Greedy Search always terminates (its Lean embedding is a
well-founded recursion on the strictly decreasing score); the returned
motif set is the `m`-th accepted iterate of the seed for some `m`, with
the scores of accepted motif sets strictly decreasing across iterations,
and the loop stops at the first iteration whose new score is not strictly
better than the previous best, returning that previous best. -/
theorem randomized_greedy_search_spec (dna : List NSeq) (k t : Nat) (g : Nat → Nat) :
    ∃ m, randomized_greedy_search dna k t g
        = (greedy_step dna k)^[m] (random_seed_motifs dna k g) ∧
      (∀ j < m, score_motifs ((greedy_step dna k)^[j + 1] (random_seed_motifs dna k g))
        < score_motifs ((greedy_step dna k)^[j] (random_seed_motifs dna k g))) ∧
      ¬ score_motifs ((greedy_step dna k)^[m + 1] (random_seed_motifs dna k g))
        < score_motifs ((greedy_step dna k)^[m] (random_seed_motifs dna k g)) :=
  greedy_loop_spec dna k (random_seed_motifs dna k g)

-- ### Gibbs sampler chain

/-- The random draws consumed by one Gibbs chain, as explicit streams:
`seedOff j` models `random.randint(0, n - k)` for sequence `j` in the
seeding loop, and per resampling step `m`, `stepIdx m` models
`random.randint(0, t - 1)`, while `stepU m` / `stepR m` model the draw
inside `profile_randomly_generated_kmer` (uniform index / unit-interval
threshold). Quantifying over `GibbsRand` quantifies over all possible
random executions. -/
structure GibbsRand where
  seedOff : Nat → Nat
  stepIdx : Nat → Nat
  stepU : Nat → Nat
  stepR : Nat → ℚ

/-- `[motifs[j] for j in range(t) if j != i]`. -/
def motifs_except (motifs : List NSeq) (t i : Nat) : List NSeq :=
  ((List.range t).filter (fun j => j != i)).map (fun j => motifs.getD j [])

/-- One resampling step of the Gibbs chain: pick `i = randint(0, t-1)`,
build the profile from all motifs except entry `i`, and replace entry `i`
with a stochastically selected window of `dna[i]`. -/
def gibbs_step (dna : List NSeq) (k t : Nat) (gr : GibbsRand) (m : Nat)
    (motifs : List NSeq) : List NSeq :=
  motifs.set (gr.stepIdx m % t)
    (profile_randomly_generated_kmer (dna.getD (gr.stepIdx m % t) []) k
      (get_profile (motifs_except motifs t (gr.stepIdx m % t)))
      (gr.stepU m) (gr.stepR m))

/-- The motif-set trajectory of one chain: the state after `m` resampling
steps, starting from the random seed. -/
def gibbs_traj (dna : List NSeq) (k t : Nat) (gr : GibbsRand) : Nat → List NSeq
  | 0 => random_seed_motifs dna k gr.seedOff
  | m + 1 => gibbs_step dna k t gr m (gibbs_traj dna k t gr m)

/-- The loop body of `gibbs_sampler_chain` acting on
`(motifs, best_motifs, best_score)`: advance the motifs one step and update
the running best only on strict score improvement. -/
def gibbs_chain_update (dna : List NSeq) (k t : Nat) (gr : GibbsRand)
    (st : List NSeq × List NSeq × Nat) (m : Nat) : List NSeq × List NSeq × Nat :=
  if score_motifs (gibbs_step dna k t gr m st.1) < st.2.2 then
    (gibbs_step dna k t gr m st.1, gibbs_step dna k t gr m st.1,
      score_motifs (gibbs_step dna k t gr m st.1))
  else (gibbs_step dna k t gr m st.1, st.2.1, st.2.2)

/-- The loop state of `gibbs_sampler_chain` after `N` steps, starting from
`(seed, seed, score(seed))`. -/
def gibbs_fold (dna : List NSeq) (k t : Nat) (gr : GibbsRand) (N : Nat) :
    List NSeq × List NSeq × Nat :=
  (List.range N).foldl (gibbs_chain_update dna k t gr)
    (random_seed_motifs dna k gr.seedOff, random_seed_motifs dna k gr.seedOff,
      score_motifs (random_seed_motifs dna k gr.seedOff))

/-- `gibbs_sampler_chain(dna, k, t, N)`: run `N` resampling steps from the
random seed and return `(best_motifs, best_score)`. -/
def gibbs_sampler_chain (dna : List NSeq) (k t N : Nat) (gr : GibbsRand) :
    List NSeq × Nat :=
  ((gibbs_fold dna k t gr N).2.1, (gibbs_fold dna k t gr N).2.2)

theorem gibbs_fold_succ (dna : List NSeq) (k t : Nat) (gr : GibbsRand) (N : Nat) :
    gibbs_fold dna k t gr (N + 1)
      = gibbs_chain_update dna k t gr (gibbs_fold dna k t gr N) N := by
  rw [gibbs_fold, gibbs_fold, List.range_succ, List.foldl_append, List.foldl_cons,
    List.foldl_nil]

theorem gibbs_fold_invariant (dna : List NSeq) (k t : Nat) (gr : GibbsRand) (N : Nat) :
    (gibbs_fold dna k t gr N).1 = gibbs_traj dna k t gr N ∧
    ∃ b, b ≤ N ∧ (gibbs_fold dna k t gr N).2.1 = gibbs_traj dna k t gr b ∧
      (gibbs_fold dna k t gr N).2.2 = score_motifs (gibbs_traj dna k t gr b) ∧
      ∀ j ≤ N, (gibbs_fold dna k t gr N).2.2 ≤ score_motifs (gibbs_traj dna k t gr j) := by
  induction N with
  | zero =>
    refine ⟨rfl, 0, le_refl 0, rfl, rfl, ?_⟩
    intro j hj
    have : j = 0 := by omega
    subst this
    exact le_refl _
  | succ N ih =>
    obtain ⟨h1, b, hb, h2, h3, h4⟩ := ih
    rw [gibbs_fold_succ, gibbs_chain_update, h1]
    by_cases hc : score_motifs (gibbs_step dna k t gr N (gibbs_traj dna k t gr N))
        < (gibbs_fold dna k t gr N).2.2
    · rw [if_pos hc]
      refine ⟨rfl, N + 1, le_refl _, rfl, rfl, ?_⟩
      intro j hj
      rcases Nat.lt_succ_iff_lt_or_eq.1 (by omega : j < N + 2) with hj2 | rfl
      · have := h4 j (by omega)
        calc score_motifs (gibbs_traj dna k t gr (N + 1))
            ≤ (gibbs_fold dna k t gr N).2.2 := le_of_lt hc
          _ ≤ score_motifs (gibbs_traj dna k t gr j) := this
      · exact le_refl _
    · rw [if_neg hc]
      refine ⟨rfl, b, by omega, h2, h3, ?_⟩
      intro j hj
      rcases Nat.lt_succ_iff_lt_or_eq.1 (by omega : j < N + 2) with hj2 | rfl
      · exact h4 j (by omega)
      · exact le_of_not_lt hc

/-- C1: for every input and every stream of random draws, the Gibbs Chain
runs its `N` resampling steps from the random seed motif set and returns a
pair `(best_motifs, best_score)` that is the trajectory state of some step
`m ≤ N` together with its score, whose score is less than or equal to the
score of every state observed during the run — the seed (step 0) included;
in particular the returned score never exceeds the seed's score. -/
theorem gibbs_sampler_chain_best_observed (dna : List NSeq) (k t N : Nat)
    (gr : GibbsRand) :
    (∃ m, m ≤ N ∧ gibbs_sampler_chain dna k t N gr
        = (gibbs_traj dna k t gr m, score_motifs (gibbs_traj dna k t gr m))) ∧
    (∀ j, j ≤ N → (gibbs_sampler_chain dna k t N gr).2
        ≤ score_motifs (gibbs_traj dna k t gr j)) ∧
    (gibbs_sampler_chain dna k t N gr).2
      ≤ score_motifs (random_seed_motifs dna k gr.seedOff) := by
  obtain ⟨h1, b, hb, h2, h3, h4⟩ := gibbs_fold_invariant dna k t gr N
  refine ⟨⟨b, hb, ?_⟩, ?_, ?_⟩
  · rw [gibbs_sampler_chain, h2, h3]
  · intro j hj
    rw [gibbs_sampler_chain]
    exact h4 j hj
  · rw [gibbs_sampler_chain]
    exact h4 0 (by omega)

theorem window_length (text : NSeq) (k off : Nat) (h : off + k ≤ text.length) :
    (window text k off).length = k := by
  rw [window, List.length_take, List.length_drop]
  omega

theorem mem_windows_elim (text : NSeq) (k : Nat) (w : NSeq) (hw : w ∈ windows text k) :
    ∃ i, i < num_windows text k ∧ w = window text k i := by
  rw [windows, List.mem_map] at hw
  obtain ⟨i, hi, rfl⟩ := hw
  exact ⟨i, List.mem_range.1 hi, rfl⟩

theorem prgk_mem_windows (text : NSeq) (k : Nat) (profile : Profile) (u : Nat) (r : ℚ)
    (hk : k ≤ text.length) :
    profile_randomly_generated_kmer text k profile u r ∈ windows text k := by
  have hlen : 0 < (windows text k).length := by
    rw [windows_length, num_windows]; omega
  rw [profile_randomly_generated_kmer]
  by_cases h : ((windows text k).map (kmer_prob profile)).sum = 0
  · simp only [h, if_pos rfl]
    have hlt : u % (windows text k).length < (windows text k).length :=
      Nat.mod_lt _ hlen
    rw [List.getD_eq_getElem _ _ hlt]
    exact List.getElem_mem _
  · simp only [if_neg h]
    exact weighted_pick_mem _ _ _ (List.ne_nil_of_length_pos hlen)

theorem getD_mem_of_lt (l : List NSeq) (i : Nat) (h : i < l.length) :
    l.getD i [] ∈ l := by
  rw [List.getD_eq_getElem _ _ h]
  exact List.getElem_mem _

theorem getD_set_ne (l : List NSeq) (j i : Nat) (a : NSeq) (h : j ≠ i) :
    (l.set j a).getD i [] = l.getD i [] := by
  rw [List.getD_eq_getElem?_getD, List.getD_eq_getElem?_getD, List.getElem?_set_ne h]

theorem getD_set_self (l : List NSeq) (j : Nat) (a : NSeq) (h : j < l.length) :
    (l.set j a).getD j [] = a := by
  rw [List.getD_eq_getElem?_getD, List.getElem?_set_self h]
  rfl

theorem gibbs_traj_windows (dna : List NSeq) (n k t : Nat) (gr : GibbsRand)
    (hlen : ∀ s ∈ dna, s.length = n) (hk : k ≤ n) (ht : t = dna.length)
    (ht1 : 1 ≤ t) :
    ∀ m, (gibbs_traj dna k t gr m).length = dna.length ∧
      ∀ i, i < dna.length → ∃ off, off + k ≤ n ∧
        (gibbs_traj dna k t gr m).getD i [] = window (dna.getD i []) k off := by
  have hd0 : 0 < dna.length := by omega
  have hhead : (dna.headD []).length = n := by
    cases dna with
    | nil => simp at hd0
    | cons d ds => exact hlen d (by simp)
  intro m
  induction m with
  | zero =>
    constructor
    · rw [gibbs_traj, random_seed_motifs, List.length_map, List.length_range]
    · intro i hi
      refine ⟨gr.seedOff i % (n + 1 - k), ?_, ?_⟩
      · have := Nat.mod_lt (gr.seedOff i) (y := n + 1 - k) (by omega)
        omega
      · rw [gibbs_traj, random_seed_motifs]
        rw [List.getD_eq_getElem _ _ (by rw [List.length_map, List.length_range]; exact hi)]
        simp only [List.getElem_map, List.getElem_range]
        rw [hhead]
  | succ m ih =>
    obtain ⟨ihL, ihW⟩ := ih
    have hi' : gr.stepIdx m % t < t := Nat.mod_lt _ (by omega)
    have hi'' : gr.stepIdx m % t < (gibbs_traj dna k t gr m).length := by
      rw [ihL]; omega
    constructor
    · rw [gibbs_traj, gibbs_step, List.length_set, ihL]
    · intro i hi
      by_cases heq : i = gr.stepIdx m % t
      · have htext : (dna.getD (gr.stepIdx m % t) []).length = n :=
          hlen _ (getD_mem_of_lt dna _ (by omega))
        have hmem := prgk_mem_windows (dna.getD (gr.stepIdx m % t) []) k
          (get_profile (motifs_except (gibbs_traj dna k t gr m) t (gr.stepIdx m % t)))
          (gr.stepU m) (gr.stepR m) (by rw [htext]; exact hk)
        obtain ⟨off, hoff, hw⟩ := mem_windows_elim _ _ _ hmem
        rw [num_windows, htext] at hoff
        refine ⟨off, by omega, ?_⟩
        rw [gibbs_traj, gibbs_step, heq]
        rw [getD_set_self _ _ _ hi'']
        exact hw
      · obtain ⟨off, hoff, hw⟩ := ihW i hi
        refine ⟨off, hoff, ?_⟩
        rw [gibbs_traj, gibbs_step, getD_set_ne _ _ _ _ (fun h => heq h.symm), hw]

/-- C10: for valid input (equal-length sequences, `t` the sequence count,
`t ≥ 2`, `k` at most the sequence length) and every stream of random draws,
the Gibbs Chain's returned pair is internally consistent: the returned
score equals the Scorer applied to the returned motif set, and the returned
motif set has one entry per sequence, each entry a length-`k` contiguous
window of the corresponding input sequence. -/
theorem gibbs_sampler_chain_consistent (dna : List NSeq) (n k t N : Nat)
    (gr : GibbsRand) (hlen : ∀ s ∈ dna, s.length = n) (hk : k ≤ n)
    (ht : t = dna.length) (ht2 : 2 ≤ t) :
    (gibbs_sampler_chain dna k t N gr).2
        = score_motifs (gibbs_sampler_chain dna k t N gr).1 ∧
    (gibbs_sampler_chain dna k t N gr).1.length = t ∧
    ∀ i, i < t → ∃ off, off + k ≤ n ∧
      ((gibbs_sampler_chain dna k t N gr).1.getD i []).length = k ∧
      (gibbs_sampler_chain dna k t N gr).1.getD i []
        = window (dna.getD i []) k off := by
  obtain ⟨h1, b, hb, h2, h3, h4⟩ := gibbs_fold_invariant dna k t gr N
  obtain ⟨hL, hW⟩ := gibbs_traj_windows dna n k t gr hlen hk ht (by omega) b
  refine ⟨?_, ?_, ?_⟩
  · rw [gibbs_sampler_chain, h2, h3]
  · rw [gibbs_sampler_chain, h2, hL, ← ht]
  · intro i hi
    obtain ⟨off, hoff, hw⟩ := hW i (by omega)
    refine ⟨off, hoff, ?_, ?_⟩
    · rw [gibbs_sampler_chain, h2, hw]
      exact window_length _ _ _ (by rw [hlen _ (getD_mem_of_lt dna i (by omega))]; omega)
    · rw [gibbs_sampler_chain, h2]
      exact hw

/-- Witness for C10 at a concrete input. -/
theorem gibbs_sampler_chain_consistent_witness :
    ((∀ s ∈ ([[Nuc.A], [Nuc.C]] : List NSeq), s.length = 1) ∧ 1 ≤ 1 ∧
      2 = ([[Nuc.A], [Nuc.C]] : List NSeq).length ∧ 2 ≤ 2) ∧
    ((gibbs_sampler_chain [[Nuc.A], [Nuc.C]] 1 2 0 ⟨fun _ => 0, fun _ => 0, fun _ => 0, fun _ => 0⟩).2
        = score_motifs (gibbs_sampler_chain [[Nuc.A], [Nuc.C]] 1 2 0
            ⟨fun _ => 0, fun _ => 0, fun _ => 0, fun _ => 0⟩).1 ∧
    (gibbs_sampler_chain [[Nuc.A], [Nuc.C]] 1 2 0
        ⟨fun _ => 0, fun _ => 0, fun _ => 0, fun _ => 0⟩).1.length = 2 ∧
    ∀ i, i < 2 → ∃ off, off + 1 ≤ 1 ∧
      ((gibbs_sampler_chain [[Nuc.A], [Nuc.C]] 1 2 0
          ⟨fun _ => 0, fun _ => 0, fun _ => 0, fun _ => 0⟩).1.getD i []).length = 1 ∧
      (gibbs_sampler_chain [[Nuc.A], [Nuc.C]] 1 2 0
          ⟨fun _ => 0, fun _ => 0, fun _ => 0, fun _ => 0⟩).1.getD i []
        = window (([[Nuc.A], [Nuc.C]] : List NSeq).getD i []) 1 off) :=
  ⟨⟨by decide, by decide, by decide, by decide⟩,
   gibbs_sampler_chain_consistent [[Nuc.A], [Nuc.C]] 1 1 2 0
     ⟨fun _ => 0, fun _ => 0, fun _ => 0, fun _ => 0⟩
     (by decide) (by decide) (by decide) (by decide)⟩

-- ### Restart orchestrator

/-- The loop body of `run_gibbs_with_restarts`: run chain `i` and replace
the global best only on strict improvement (`score < global_best_score`).
The initial `float('inf')` is modelled by `⊤` in `ℕ∞`. -/
def orchestrator_update (dna : List NSeq) (k t N : Nat) (rnd : Nat → GibbsRand)
    (gb : List NSeq × ℕ∞) (i : Nat) : List NSeq × ℕ∞ :=
  if ((gibbs_sampler_chain dna k t N (rnd i)).2 : ℕ∞) < gb.2 then
    ((gibbs_sampler_chain dna k t N (rnd i)).1,
      ((gibbs_sampler_chain dna k t N (rnd i)).2 : ℕ∞))
  else gb

/-- `run_gibbs_with_restarts(dna, k, t, N, restarts)`: fold the strict
improvement update over `restarts` independent chains, starting from
`([], inf)`, and return the global best pair. -/
def run_gibbs_with_restarts (dna : List NSeq) (k t N restarts : Nat)
    (rnd : Nat → GibbsRand) : List NSeq × ℕ∞ :=
  (List.range restarts).foldl (orchestrator_update dna k t N rnd) ([], ⊤)

theorem orchestrator_fold_invariant (dna : List NSeq) (k t N : Nat)
    (rnd : Nat → GibbsRand) :
    ∀ R, 1 ≤ R →
      ∃ b, b < R ∧
        run_gibbs_with_restarts dna k t N R rnd
          = ((gibbs_sampler_chain dna k t N (rnd b)).1,
             ((gibbs_sampler_chain dna k t N (rnd b)).2 : ℕ∞)) ∧
        (∀ j, j < R → ((gibbs_sampler_chain dna k t N (rnd b)).2 : ℕ∞)
          ≤ ((gibbs_sampler_chain dna k t N (rnd j)).2 : ℕ∞)) ∧
        (∀ j, j < b → ((gibbs_sampler_chain dna k t N (rnd b)).2 : ℕ∞)
          < ((gibbs_sampler_chain dna k t N (rnd j)).2 : ℕ∞)) := by
  intro R
  induction R with
  | zero => omega
  | succ R ih =>
    intro _
    have hfold : run_gibbs_with_restarts dna k t N (R + 1) rnd
        = orchestrator_update dna k t N rnd
            (run_gibbs_with_restarts dna k t N R rnd) R := by
      rw [run_gibbs_with_restarts, run_gibbs_with_restarts, List.range_succ,
        List.foldl_append, List.foldl_cons, List.foldl_nil]
    rcases Nat.eq_zero_or_pos R with rfl | hR
    · refine ⟨0, by omega, ?_, ?_, by omega⟩
      · rw [hfold]
        have h0 : run_gibbs_with_restarts dna k t N 0 rnd = ([], ⊤) := rfl
        rw [h0, orchestrator_update]
        rw [if_pos (by exact WithTop.coe_lt_top _)]
      · intro j hj
        have : j = 0 := by omega
        subst this
        exact le_refl _
    · obtain ⟨b, hb, hres, hmin, hfirst⟩ := ih hR
      rw [hfold, orchestrator_update, hres]
      by_cases hc : ((gibbs_sampler_chain dna k t N (rnd R)).2 : ℕ∞)
          < ((gibbs_sampler_chain dna k t N (rnd b)).2 : ℕ∞)
      · rw [if_pos hc]
        refine ⟨R, by omega, rfl, ?_, ?_⟩
        · intro j hj
          rcases Nat.lt_succ_iff_lt_or_eq.1 hj with hj2 | rfl
          · exact le_of_lt (lt_of_lt_of_le hc (hmin j hj2))
          · exact le_refl _
        · intro j hj
          exact lt_of_lt_of_le hc (hmin j (by omega))
      · rw [if_neg hc]
        refine ⟨b, by omega, rfl, ?_, hfirst⟩
        intro j hj
        rcases Nat.lt_succ_iff_lt_or_eq.1 hj with hj2 | rfl
        · exact hmin j hj2
        · exact le_of_not_lt hc

/-- C2: for every restart count `R ≥ 1` and every family of per-chain
random streams, the Restart Orchestrator returns the result of some chain
`b < R` whose score is less than or equal to every individual chain's
returned score, and every chain before `b` has a strictly greater score —
the global best is updated only on strict improvement, so ties are broken
by the first-found chain. -/
theorem run_gibbs_with_restarts_spec (dna : List NSeq) (k t N R : Nat)
    (rnd : Nat → GibbsRand) (hR : 1 ≤ R) :
    ∃ b, b < R ∧
      run_gibbs_with_restarts dna k t N R rnd
        = ((gibbs_sampler_chain dna k t N (rnd b)).1,
           ((gibbs_sampler_chain dna k t N (rnd b)).2 : ℕ∞)) ∧
      (∀ j, j < R → (run_gibbs_with_restarts dna k t N R rnd).2
        ≤ ((gibbs_sampler_chain dna k t N (rnd j)).2 : ℕ∞)) ∧
      (∀ j, j < b → (run_gibbs_with_restarts dna k t N R rnd).2
        < ((gibbs_sampler_chain dna k t N (rnd j)).2 : ℕ∞)) := by
  obtain ⟨b, hb, hres, hmin, hfirst⟩ := orchestrator_fold_invariant dna k t N rnd R hR
  refine ⟨b, hb, hres, ?_, ?_⟩
  · intro j hj
    rw [hres]
    exact hmin j hj
  · intro j hj
    rw [hres]
    exact hfirst j hj

/-- Witness for C2 at a concrete input. -/
theorem run_gibbs_with_restarts_spec_witness :
    1 ≤ 1 ∧
    (∃ b, b < 1 ∧
      run_gibbs_with_restarts [[Nuc.A], [Nuc.C]] 1 2 0 1
          (fun _ => ⟨fun _ => 0, fun _ => 0, fun _ => 0, fun _ => 0⟩)
        = ((gibbs_sampler_chain [[Nuc.A], [Nuc.C]] 1 2 0
            ⟨fun _ => 0, fun _ => 0, fun _ => 0, fun _ => 0⟩).1,
           ((gibbs_sampler_chain [[Nuc.A], [Nuc.C]] 1 2 0
            ⟨fun _ => 0, fun _ => 0, fun _ => 0, fun _ => 0⟩).2 : ℕ∞)) ∧
      (∀ j, j < 1 → (run_gibbs_with_restarts [[Nuc.A], [Nuc.C]] 1 2 0 1
          (fun _ => ⟨fun _ => 0, fun _ => 0, fun _ => 0, fun _ => 0⟩)).2
        ≤ ((gibbs_sampler_chain [[Nuc.A], [Nuc.C]] 1 2 0
            ⟨fun _ => 0, fun _ => 0, fun _ => 0, fun _ => 0⟩).2 : ℕ∞)) ∧
      (∀ j, j < b → (run_gibbs_with_restarts [[Nuc.A], [Nuc.C]] 1 2 0 1
          (fun _ => ⟨fun _ => 0, fun _ => 0, fun _ => 0, fun _ => 0⟩)).2
        < ((gibbs_sampler_chain [[Nuc.A], [Nuc.C]] 1 2 0
            ⟨fun _ => 0, fun _ => 0, fun _ => 0, fun _ => 0⟩).2 : ℕ∞))) :=
  ⟨by decide,
   run_gibbs_with_restarts_spec [[Nuc.A], [Nuc.C]] 1 2 0 1
     (fun _ => ⟨fun _ => 0, fun _ => 0, fun _ => 0, fun _ => 0⟩) (by decide)⟩
